import Mathlib

/-!
# Verification of the `piecetable-rs` piece table

A shallow embedding of `src/lib.rs`.  Rust `String` buffers are modelled as
`List Char`; byte offsets are sums of `Char.utf8Size`.  Rust operations that
can panic (string slicing off a character boundary, `find_offset`'s
`panic!("index out of range")`, out-of-bounds indexing, `Vec::splice` with an
invalid range) are modelled as `Option`-valued functions returning `none`.
-/

namespace PT

/-- Byte length of a character list under UTF-8 encoding
(Rust `str::len` on the corresponding `&str`). -/
def utf8ByteLen (s : List Char) : Nat :=
  (s.map Char.utf8Size).sum

/-- Take a prefix of exactly `n` bytes from a character list.  Returns `none`
when `n` is not a character boundary of the list (Rust string slicing panics
there), otherwise the characters making up those `n` bytes. -/
def takeBytes : List Char → Nat → Option (List Char)
  | _, 0 => some []
  | [], _ + 1 => none
  | c :: cs, n + 1 =>
    if c.utf8Size ≤ n + 1 then
      (takeBytes cs (n + 1 - c.utf8Size)).map (fun l => c :: l)
    else none

/-- Drop a prefix of exactly `n` bytes from a character list; `none` when `n`
is not a character boundary. -/
def dropBytes : List Char → Nat → Option (List Char)
  | l, 0 => some l
  | [], _ + 1 => none
  | c :: cs, n + 1 =>
    if c.utf8Size ≤ n + 1 then
      dropBytes cs (n + 1 - c.utf8Size)
    else none

/-- The slice `buf[b .. b+len]` in byte offsets (Rust `&s[range]`);
`none` models the panic when an endpoint is out of range or off a character
boundary. -/
def sliceBytes (buf : List Char) (b len : Nat) : Option (List Char) :=
  (dropBytes buf b).bind (fun suf => takeBytes suf len)

/-- `Utf8Offset` of `lib.rs`: a length/position in both metrics. -/
structure Utf8Offset where
  utf8 : Nat
  byte : Nat
  deriving DecidableEq, Repr

/-- `Utf8Offset::new(byte_size, utf8_size)`. -/
def Utf8Offset.new (byte_size utf8_size : Nat) : Utf8Offset :=
  ⟨utf8_size, byte_size⟩

/-- `Utf8Offset::from_str`. -/
def Utf8Offset.from_str (s : List Char) : Utf8Offset :=
  ⟨s.length, utf8ByteLen s⟩

/-- `fn to_byte_offset(data: &str, unicode_offset: usize) -> usize`. -/
def to_byte_offset (data : List Char) (unicode_offset : Nat) : Nat :=
  ((data.map Char.utf8Size).take unicode_offset).sum

/-- `enum Location`. -/
inductive Location where
  | original
  | added
  deriving DecidableEq, Repr

/-- `struct Piece`. -/
structure Piece where
  begin : Nat
  len : Utf8Offset
  location : Location
  deriving DecidableEq, Repr

/-- `fn split_piece(piece: &Piece, offset: Utf8Offset) -> (Piece, Piece)`. -/
def split_piece (piece : Piece) (offset : Utf8Offset) : Piece × Piece :=
  let prev_piece : Piece := ⟨piece.begin, offset, piece.location⟩
  let next_piece : Piece :=
    ⟨offset.byte + piece.begin,
     Utf8Offset.new (piece.len.byte - offset.byte) (piece.len.utf8 - offset.utf8),
     piece.location⟩
  (prev_piece, next_piece)

/-- `struct PieceTable`. -/
structure PieceTable where
  src : List Char
  added : List Char
  table : List Piece
  deriving DecidableEq, Repr

namespace PieceTable

/-- `fn get_piece_data(&self, piece: &Piece) -> &str`; `none` models the
slicing panic on an invalid piece. -/
def get_piece_data (t : PieceTable) (piece : Piece) : Option (List Char) :=
  match piece.location with
  | .added => sliceBytes t.added piece.begin piece.len.byte
  | .original => sliceBytes t.src piece.begin piece.len.byte

/-- Loop body of `find_offset`: walk the pieces accumulating the index,
subtracting each piece's character length from the remaining offset.
`none` models the `panic!("index out of range")` at the end of the loop. -/
def find_offsetGo (t : PieceTable) :
    List Piece → Nat → Nat → Option (Nat × Utf8Offset)
  | [], _, _ => none
  | piece :: rest, unicode_offset, idx =>
    if unicode_offset ≤ piece.len.utf8 then
      match t.get_piece_data piece with
      | some data =>
          some (idx, Utf8Offset.new (to_byte_offset data unicode_offset) unicode_offset)
      | none => none
    else
      find_offsetGo t rest (unicode_offset - piece.len.utf8) (idx + 1)

/-- `fn find_offset(&self, unicode_offset: usize) -> (usize, Utf8Offset)`. -/
def find_offset (t : PieceTable) (unicode_offset : Nat) : Option (Nat × Utf8Offset) :=
  find_offsetGo t t.table unicode_offset 0

/-- `Vec::splice(a..=b, repl)` on the piece list. -/
def spliceIncl (l : List Piece) (a b : Nat) (repl : List Piece) : List Piece :=
  l.take a ++ repl ++ l.drop (b + 1)

/-- `fn insert_at(&mut self, unicode_offset: usize, data: &str)`.  The Rust
method mutates in place and panics on a bad offset; here it returns the new
table, `none` for the panic. -/
def insert_at (t : PieceTable) (unicode_offset : Nat) (data : List Char) :
    Option PieceTable :=
  let new_piece : Piece :=
    ⟨utf8ByteLen t.added, Utf8Offset.from_str data, .added⟩
  match t.find_offset unicode_offset with
  | none => none
  | some (piece_idx, offset) =>
    match t.table[piece_idx]? with
    | none => none
    | some piece =>
      if offset.byte = piece.len.byte then
        some { t with
               table := t.table.take (piece_idx + 1) ++ new_piece :: t.table.drop (piece_idx + 1),
               added := t.added ++ data }
      else
        some { t with
               table := spliceIncl t.table piece_idx piece_idx
                 [(split_piece piece offset).1, new_piece, (split_piece piece offset).2],
               added := t.added ++ data }

/-- `fn new(src: &str) -> PieceTable`. -/
def new (src : List Char) : PieceTable :=
  { src := src
    added := []
    table := [⟨0, Utf8Offset.from_str src, .original⟩] }

/-- `fn to_string(&self) -> String`: concatenate each piece's slice;
`none` models a slicing panic on an invalid piece. -/
def to_string (t : PieceTable) : Option (List Char) :=
  (t.table.mapM t.get_piece_data).map List.flatten

/-- `fn remove_range(&mut self, range: Range<usize>)`; `none` models the
panics (offset resolution, indexing, `splice` on a reversed index range). -/
def remove_range (t : PieceTable) (start stop : Nat) : Option PieceTable :=
  match t.find_offset start with
  | none => none
  | some (table_start, start_off) =>
  match t.find_offset stop with
  | none => none
  | some (table_end, end_off) =>
  match t.table[table_start]?, t.table[table_end]? with
  | some startPiece, some endPiece =>
    if table_start ≤ table_end + 1 then
      if startPiece.len.byte = start_off.byte then
        some { t with table := spliceIncl t.table table_start table_end
                        [(split_piece endPiece end_off).2] }
      else if endPiece.len.byte = start_off.byte then
        some { t with table := spliceIncl t.table table_start table_end
                        [(split_piece startPiece start_off).1] }
      else
        some { t with table := spliceIncl t.table table_start table_end
                        [(split_piece startPiece start_off).1,
                         (split_piece endPiece end_off).2] }
    else none
  | _, _ => none

end PieceTable

/-! ## Specification predicates -/

/-- `Denotes buf p data` says piece `p` addresses exactly the characters `data`
inside `buf`: its byte range starts at a character boundary, spans whole
characters, and its two length metrics agree with `data`. -/
def Denotes (buf : List Char) (p : Piece) (data : List Char) : Prop :=
  ∃ pre post, buf = pre ++ data ++ post ∧ p.begin = utf8ByteLen pre ∧
    p.len.byte = utf8ByteLen data ∧ p.len.utf8 = data.length

/-- Denotation relative to the two buffers of a table, dispatching on the
piece's `location` the way `get_piece_data` does. -/
def PieceDen (src added : List Char) (p : Piece) (data : List Char) : Prop :=
  match p.location with
  | .original => Denotes src p data
  | .added => Denotes added p data

/-- Total character length described by a list of piece denotations. -/
def totalLen (datas : List (List Char)) : Nat :=
  (datas.map List.length).sum

/-- Well-formedness of a table: each piece in sequence denotes the
corresponding entry of `datas` inside its buffer. -/
def WF (t : PieceTable) (datas : List (List Char)) : Prop :=
  List.Forall₂ (PieceDen t.src t.added) t.table datas

/-- Tables produced by `new` followed by any sequence of successful
`insert_at` / `remove_range` calls. -/
inductive Reachable : PieceTable → Prop where
  | base (s : List Char) : Reachable (PieceTable.new s)
  | insert_step {t t' : PieceTable} (o : Nat) (s : List Char) :
      Reachable t → t.insert_at o s = some t' → Reachable t'
  | remove_step {t t' : PieceTable} (a b : Nat) :
      Reachable t → t.remove_range a b = some t' → Reachable t'

/-! ## Byte-level lemmas -/

theorem utf8ByteLen_nil : utf8ByteLen [] = 0 := rfl

theorem utf8ByteLen_cons (c : Char) (cs : List Char) :
    utf8ByteLen (c :: cs) = c.utf8Size + utf8ByteLen cs := by
  simp [utf8ByteLen]

theorem utf8ByteLen_append (xs ys : List Char) :
    utf8ByteLen (xs ++ ys) = utf8ByteLen xs + utf8ByteLen ys := by
  simp [utf8ByteLen]

theorem to_byte_offset_eq (data : List Char) (k : Nat) :
    to_byte_offset data k = utf8ByteLen (data.take k) := by
  simp [to_byte_offset, utf8ByteLen, List.map_take]

theorem takeBytes_cons_of (c : Char) (cs : List Char) (n : Nat) (h : c.utf8Size ≤ n) :
    takeBytes (c :: cs) n = (takeBytes cs (n - c.utf8Size)).map (fun l => c :: l) := by
  cases n with
  | zero => have := c.utf8Size_pos; omega
  | succ m => simp [takeBytes, h]

theorem dropBytes_cons_of (c : Char) (cs : List Char) (n : Nat) (h : c.utf8Size ≤ n) :
    dropBytes (c :: cs) n = dropBytes cs (n - c.utf8Size) := by
  cases n with
  | zero => have := c.utf8Size_pos; omega
  | succ m => simp [dropBytes, h]

theorem takeBytes_append (xs ys : List Char) :
    takeBytes (xs ++ ys) (utf8ByteLen xs) = some xs := by
  induction xs with
  | nil => simp [takeBytes, utf8ByteLen]
  | cons c cs ih =>
    rw [List.cons_append, utf8ByteLen_cons,
      takeBytes_cons_of c (cs ++ ys) _ (Nat.le_add_right _ _),
      Nat.add_sub_cancel_left, ih]
    rfl

theorem dropBytes_append (xs ys : List Char) :
    dropBytes (xs ++ ys) (utf8ByteLen xs) = some ys := by
  induction xs with
  | nil => simp [dropBytes, utf8ByteLen]
  | cons c cs ih =>
    rw [List.cons_append, utf8ByteLen_cons,
      dropBytes_cons_of c (cs ++ ys) _ (Nat.le_add_right _ _),
      Nat.add_sub_cancel_left, ih]

theorem sliceBytes_of_parts (pre data post : List Char) :
    sliceBytes (pre ++ data ++ post) (utf8ByteLen pre) (utf8ByteLen data) = some data := by
  rw [sliceBytes, List.append_assoc, dropBytes_append, Option.some_bind, takeBytes_append]

theorem utf8ByteLen_pos (c : Char) (cs : List Char) : 0 < utf8ByteLen (c :: cs) := by
  have := c.utf8Size_pos
  rw [utf8ByteLen_cons]
  omega

theorem utf8ByteLen_take_lt (l : List Char) (n : Nat) (h : n < l.length) :
    utf8ByteLen (l.take n) < utf8ByteLen l := by
  conv_rhs => rw [← List.take_append_drop n l]
  rw [utf8ByteLen_append]
  cases hd : l.drop n with
  | nil => have := congrArg List.length hd; simp at this; omega
  | cons c cs => have := utf8ByteLen_pos c cs; omega

/-! ## Piece denotation lemmas -/

theorem Denotes.len_utf8_eq {buf : List Char} {p : Piece} {data : List Char}
    (h : Denotes buf p data) : p.len.utf8 = data.length := by
  obtain ⟨pre, post, _, _, _, h3⟩ := h
  exact h3

theorem Denotes.len_byte_eq {buf : List Char} {p : Piece} {data : List Char}
    (h : Denotes buf p data) : p.len.byte = utf8ByteLen data := by
  obtain ⟨pre, post, _, _, h2, _⟩ := h
  exact h2

theorem Denotes.slice {buf : List Char} {p : Piece} {data : List Char}
    (h : Denotes buf p data) :
    sliceBytes buf p.begin p.len.byte = some data := by
  obtain ⟨pre, post, hbuf, h1, h2, _⟩ := h
  rw [hbuf, h1, h2]
  exact sliceBytes_of_parts pre data post

theorem PieceDen.len_utf8 {src added : List Char} {p : Piece} {data : List Char}
    (h : PieceDen src added p data) : p.len.utf8 = data.length := by
  unfold PieceDen at h
  cases hl : p.location <;> rw [hl] at h <;>
    · obtain ⟨pre, post, _, _, _, h3⟩ := h
      exact h3

theorem PieceDen.len_byte {src added : List Char} {p : Piece} {data : List Char}
    (h : PieceDen src added p data) : p.len.byte = utf8ByteLen data := by
  unfold PieceDen at h
  cases hl : p.location <;> rw [hl] at h <;>
    · obtain ⟨pre, post, _, _, h2, _⟩ := h
      exact h2

theorem get_piece_data_of_den {t : PieceTable} {p : Piece} {data : List Char}
    (h : PieceDen t.src t.added p data) :
    t.get_piece_data p = some data := by
  unfold PieceDen at h
  unfold PieceTable.get_piece_data
  cases hl : p.location <;> rw [hl] at h <;> exact h.slice

theorem PieceDen.extend_added {src added : List Char} {p : Piece} {data : List Char}
    (h : PieceDen src added p data) (ext : List Char) :
    PieceDen src (added ++ ext) p data := by
  unfold PieceDen at h ⊢
  cases hl : p.location <;> rw [hl] at h
  · exact h
  · obtain ⟨pre, post, hbuf, h1, h2, h3⟩ := h
    exact ⟨pre, post ++ ext, by rw [hbuf]; simp, h1, h2, h3⟩

/-! ## Splitting a valid piece at a character boundary -/

theorem den_split_prev {buf : List Char} {p : Piece} {data : List Char}
    (h : Denotes buf p data) {rem : Nat} (hrem : rem ≤ data.length) :
    Denotes buf (split_piece p ⟨rem, utf8ByteLen (data.take rem)⟩).1 (data.take rem) := by
  obtain ⟨pre, post, hbuf, h1, h2, h3⟩ := h
  refine ⟨pre, data.drop rem ++ post, ?_, ?_, ?_, ?_⟩
  · rw [hbuf]
    simp only [List.append_assoc]
    congr 1
    rw [← List.append_assoc, List.take_append_drop]
  · exact h1
  · show utf8ByteLen (data.take rem) = utf8ByteLen (data.take rem)
    rfl
  · show rem = (data.take rem).length
    rw [List.length_take]
    exact (min_eq_left hrem).symm

theorem den_split_next {buf : List Char} {p : Piece} {data : List Char}
    (h : Denotes buf p data) {rem : Nat} (hrem : rem ≤ data.length) :
    Denotes buf (split_piece p ⟨rem, utf8ByteLen (data.take rem)⟩).2 (data.drop rem) := by
  obtain ⟨pre, post, hbuf, h1, h2, h3⟩ := h
  have hsplit : utf8ByteLen (data.take rem) + utf8ByteLen (data.drop rem) = utf8ByteLen data := by
    rw [← utf8ByteLen_append, List.take_append_drop]
  refine ⟨pre ++ data.take rem, post, ?_, ?_, ?_, ?_⟩
  · rw [hbuf]
    simp only [List.append_assoc]
    congr 1
    rw [← List.append_assoc, List.take_append_drop]
  · show utf8ByteLen (data.take rem) + p.begin = utf8ByteLen (pre ++ data.take rem)
    rw [utf8ByteLen_append, h1]
    omega
  · show p.len.byte - utf8ByteLen (data.take rem) = utf8ByteLen (data.drop rem)
    rw [h2]
    omega
  · show p.len.utf8 - rem = (data.drop rem).length
    rw [h3, List.length_drop]

theorem pden_split_prev {src added : List Char} {p : Piece} {data : List Char}
    (h : PieceDen src added p data) {rem : Nat} (hrem : rem ≤ data.length) :
    PieceDen src added (split_piece p ⟨rem, utf8ByteLen (data.take rem)⟩).1 (data.take rem) := by
  unfold PieceDen at h ⊢
  cases hl : p.location <;> rw [hl] at h <;> simp only [split_piece] <;> rw [hl] <;>
    exact den_split_prev (by simpa [split_piece, hl] using h) hrem

theorem pden_split_next {src added : List Char} {p : Piece} {data : List Char}
    (h : PieceDen src added p data) {rem : Nat} (hrem : rem ≤ data.length) :
    PieceDen src added (split_piece p ⟨rem, utf8ByteLen (data.take rem)⟩).2 (data.drop rem) := by
  unfold PieceDen at h ⊢
  cases hl : p.location <;> rw [hl] at h <;> simp only [split_piece] <;> rw [hl] <;>
    exact den_split_next (by simpa [split_piece, hl] using h) hrem

/-! ## Table well-formedness and rendering -/

theorem totalLen_append (xs ys : List (List Char)) :
    totalLen (xs ++ ys) = totalLen xs + totalLen ys := by
  simp [totalLen]

theorem totalLen_cons (x : List Char) (xs : List (List Char)) :
    totalLen (x :: xs) = x.length + totalLen xs := by
  simp [totalLen]

theorem totalLen_eq_length_flatten (datas : List (List Char)) :
    totalLen datas = datas.flatten.length := by
  simp [totalLen, List.length_flatten]

theorem mapM_get_piece_data {t : PieceTable} {pieces : List Piece}
    {datas : List (List Char)}
    (h : List.Forall₂ (PieceDen t.src t.added) pieces datas) :
    pieces.mapM t.get_piece_data = some datas := by
  induction h with
  | nil => rfl
  | cons ha _ ih =>
    rw [List.mapM_cons, get_piece_data_of_den ha, ih]
    rfl

theorem to_string_wf {t : PieceTable} {datas : List (List Char)} (h : WF t datas) :
    t.to_string = some datas.flatten := by
  rw [PieceTable.to_string, mapM_get_piece_data h]
  rfl

/-! ## Offset resolution -/

theorem find_offsetGo_sound {t : PieceTable} {pieces : List Piece}
    {datas : List (List Char)}
    (h : List.Forall₂ (PieceDen t.src t.added) pieces datas) :
    ∀ {o idx : Nat} {res : Nat × Utf8Offset},
    PieceTable.find_offsetGo t pieces o idx = some res →
    ∃ j rem p data,
      pieces[j]? = some p ∧ datas[j]? = some data ∧
      PieceDen t.src t.added p data ∧ rem ≤ data.length ∧
      res = (idx + j, ⟨rem, utf8ByteLen (data.take rem)⟩) ∧
      totalLen (datas.take j) + rem = o := by
  induction h with
  | nil =>
    intro o idx res h'
    simp [PieceTable.find_offsetGo] at h'
  | @cons p data pieces' datas' hpd htl ih =>
    intro o idx res h'
    simp only [PieceTable.find_offsetGo] at h'
    by_cases hle : o ≤ p.len.utf8
    · rw [if_pos hle, get_piece_data_of_den hpd] at h'
      simp only [Option.some.injEq] at h'
      refine ⟨0, o, p, data, by simp, by simp, hpd, ?_, ?_, ?_⟩
      · rw [← hpd.len_utf8]
        exact hle
      · rw [← h', Utf8Offset.new, to_byte_offset_eq]
        simp
      · simp [totalLen]
    · rw [if_neg hle] at h'
      obtain ⟨j, rem, p', data', hp', hd', hpd', hrem, hres, hsum⟩ := ih h'
      have hlen := hpd.len_utf8
      refine ⟨j + 1, rem, p', data', by simpa using hp', by simpa using hd',
        hpd', hrem, ?_, ?_⟩
      · rw [hres]
        congr 1
        omega
      · rw [List.take_succ_cons, totalLen_cons]
        omega

theorem find_offsetGo_isSome {t : PieceTable} {pieces : List Piece}
    {datas : List (List Char)}
    (h : List.Forall₂ (PieceDen t.src t.added) pieces datas) :
    ∀ {o idx : Nat}, o ≤ totalLen datas → pieces ≠ [] →
    (PieceTable.find_offsetGo t pieces o idx).isSome := by
  induction h with
  | nil =>
    intro o idx _ hne
    exact absurd rfl hne
  | @cons p data pieces' datas' hpd htl ih =>
    intro o idx ho _
    have hlen := hpd.len_utf8
    simp only [PieceTable.find_offsetGo]
    by_cases hle : o ≤ p.len.utf8
    · rw [if_pos hle, get_piece_data_of_den hpd]
      rfl
    · rw [if_neg hle]
      cases htl with
      | nil =>
        rw [totalLen_cons, totalLen] at ho
        simp at ho
        omega
      | @cons p' data' pieces'' datas'' hpd' htl' =>
        rw [totalLen_cons] at ho
        exact ih (by omega) (by simp)

theorem find_offsetGo_none {t : PieceTable} {pieces : List Piece}
    {datas : List (List Char)}
    (h : List.Forall₂ (PieceDen t.src t.added) pieces datas) :
    ∀ {o idx : Nat}, totalLen datas < o →
    PieceTable.find_offsetGo t pieces o idx = none := by
  induction h with
  | nil =>
    intro o idx _
    rfl
  | @cons p data pieces' datas' hpd htl ih =>
    intro o idx ho
    have hlen := hpd.len_utf8
    rw [totalLen_cons] at ho
    simp only [PieceTable.find_offsetGo]
    rw [if_neg (by omega)]
    exact ih (by omega)

theorem forall₂_mem_left {α β : Type} {R : α → β → Prop} {l1 : List α} {l2 : List β}
    (h : List.Forall₂ R l1 l2) : ∀ {a : α}, a ∈ l1 → ∃ b, b ∈ l2 ∧ R a b := by
  induction h with
  | nil =>
    intro a ha
    cases ha
  | cons hr _ ih =>
    intro a ha
    cases ha with
    | head => exact ⟨_, List.mem_cons_self _ _, hr⟩
    | tail _ ht =>
      obtain ⟨b, hb, hrb⟩ := ih ht
      exact ⟨b, List.mem_cons_of_mem _ hb, hrb⟩

/-! ## List splicing helpers -/

theorem take_append_add {α : Type} (xs ys : List α) (k : Nat) :
    (xs ++ ys).take (xs.length + k) = xs ++ ys.take k := by
  rw [List.take_append_eq_append_take,
    List.take_of_length_le (Nat.le_add_right _ _), Nat.add_sub_cancel_left]

theorem drop_append_add {α : Type} (xs ys : List α) (k : Nat) :
    (xs ++ ys).drop (xs.length + k) = ys.drop k := by
  rw [List.drop_append_eq_append_drop,
    List.drop_of_length_le (Nat.le_add_right _ _), Nat.add_sub_cancel_left,
    List.nil_append]

theorem take_at_mid {α : Type} (A data B : List α) (rem : Nat) (h : rem ≤ data.length) :
    (A ++ data ++ B).take (A.length + rem) = A ++ data.take rem := by
  rw [List.append_assoc, take_append_add, List.take_append_eq_append_take,
    (by omega : rem - data.length = 0)]
  simp

theorem drop_at_mid {α : Type} (A data B : List α) (rem : Nat) (h : rem ≤ data.length) :
    (A ++ data ++ B).drop (A.length + rem) = data.drop rem ++ B := by
  rw [List.append_assoc, drop_append_add, List.drop_append_eq_append_drop,
    (by omega : rem - data.length = 0)]
  simp

theorem eq_take_cons_drop {α : Type} (l : List α) (j : Nat) (a : α) (h : l[j]? = some a) :
    l = l.take j ++ a :: l.drop (j + 1) := by
  induction l generalizing j with
  | nil => simp at h
  | cons x xs ih =>
    cases j with
    | zero => simp_all
    | succ j' =>
      simp only [List.getElem?_cons_succ] at h
      simp only [List.take_succ_cons, List.drop_succ_cons, List.cons_append]
      exact congrArg (fun l => x :: l) (ih j' h)

theorem flatten_split_at {datas : List (List Char)} {j : Nat} {data : List Char}
    (hd : datas[j]? = some data) :
    datas.flatten = (datas.take j).flatten ++ data ++ (datas.drop (j + 1)).flatten := by
  conv_lhs => rw [eq_take_cons_drop datas j data hd]
  simp [List.append_assoc]

/-! ## Soundness of `insert_at` -/

theorem insert_at_sound {t : PieceTable} {datas : List (List Char)} {o : Nat}
    {s : List Char} {t' : PieceTable}
    (hwf : WF t datas) (h : t.insert_at o s = some t') :
    ∃ datas', WF t' datas' ∧
      datas'.flatten = datas.flatten.take o ++ s ++ datas.flatten.drop o ∧
      t'.src = t.src ∧ t'.added = t.added ++ s ∧ t'.table ≠ [] ∧
      o ≤ datas.flatten.length := by
  unfold PieceTable.insert_at at h
  cases hfo : t.find_offset o with
  | none =>
    rw [hfo] at h
    simp at h
  | some res =>
    obtain ⟨pidx, off⟩ := res
    have hgo : PieceTable.find_offsetGo t t.table o 0 = some (pidx, off) := hfo
    obtain ⟨j, rem, p, data, hp, hd, hpd, hrem, hres, hsum⟩ := find_offsetGo_sound hwf hgo
    injection hres with h1 h2
    rw [Nat.zero_add] at h1
    have h1' : j = pidx := h1.symm
    subst h1'
    subst h2
    rw [hfo] at h
    dsimp at h
    rw [hp] at h
    dsimp at h
    -- abbreviations for the pieces of the document around the cursor
    have hA : (datas.take j).flatten.length = totalLen (datas.take j) :=
      (totalLen_eq_length_flatten _).symm
    have hdoc := flatten_split_at hd
    have hwf' : List.Forall₂ (PieceDen t.src (t.added ++ s)) t.table datas :=
      hwf.imp (fun a b hab => hab.extend_added s)
    have hnew : PieceDen t.src (t.added ++ s)
        ⟨utf8ByteLen t.added, Utf8Offset.from_str s, .added⟩ s := by
      unfold PieceDen
      exact ⟨t.added, [], by simp, rfl, rfl, rfl⟩
    have htake : datas.flatten.take o = (datas.take j).flatten ++ data.take rem := by
      rw [hdoc, ← hsum, ← hA, take_at_mid _ _ _ _ hrem]
    have hdrop : datas.flatten.drop o =
        data.drop rem ++ (datas.drop (j + 1)).flatten := by
      rw [hdoc, ← hsum, ← hA, drop_at_mid _ _ _ _ hrem]
    have holen : o ≤ datas.flatten.length := by
      have hlen2 := congrArg List.length hdoc
      rw [List.length_append, List.length_append] at hlen2
      omega
    by_cases hb : utf8ByteLen (List.take rem data) = p.len.byte
    · -- cursor at the end of the piece: no split
      rw [if_pos hb] at h
      have hremlen : rem = data.length := by
        rcases Nat.lt_or_ge rem data.length with hlt | hge
        · have := utf8ByteLen_take_lt data rem hlt
          rw [hpd.len_byte] at hb
          omega
        · omega
      simp only [Option.some.injEq] at h
      refine ⟨datas.take j ++ [data, s] ++ datas.drop (j + 1), ?_, ?_, ?_, ?_, ?_, holen⟩
      · unfold WF
        rw [← h]
        have htab : List.take (j + 1) t.table ++
            (⟨utf8ByteLen t.added, Utf8Offset.from_str s, .added⟩ : Piece) ::
              List.drop (j + 1) t.table =
            List.take j t.table ++
              [p, ⟨utf8ByteLen t.added, Utf8Offset.from_str s, .added⟩] ++
                List.drop (j + 1) t.table := by
          rw [List.take_succ, hp]
          simp
        simp only [htab, List.append_assoc]
        exact List.rel_append (List.forall₂_take j hwf')
          (List.rel_append
            (List.Forall₂.cons (hpd.extend_added s)
              (List.Forall₂.cons hnew List.Forall₂.nil))
            (List.forall₂_drop (j + 1) hwf'))
      · rw [htake, hdrop, hremlen]
        simp [List.append_assoc]
      · rw [← h]
      · rw [← h]
      · rw [← h]
        simp
    · -- cursor strictly inside the piece: split it
      rw [if_neg hb] at h
      simp only [Option.some.injEq] at h
      refine ⟨datas.take j ++ [data.take rem, s, data.drop rem] ++ datas.drop (j + 1),
        ?_, ?_, ?_, ?_, ?_, holen⟩
      · unfold WF
        rw [← h]
        simp only [PieceTable.spliceIncl, List.append_assoc]
        refine List.rel_append (List.forall₂_take j hwf')
          (List.rel_append
            (List.Forall₂.cons ((pden_split_prev hpd hrem).extend_added s)
              (List.Forall₂.cons hnew
                (List.Forall₂.cons ((pden_split_next hpd hrem).extend_added s)
                  List.Forall₂.nil)))
            (List.forall₂_drop (j + 1) hwf'))
      · rw [htake, hdrop]
        simp [List.append_assoc]
      · rw [← h]
      · rw [← h]
      · rw [← h]
        simp [PieceTable.spliceIncl]

theorem insert_at_isSome {t : PieceTable} {datas : List (List Char)} (hwf : WF t datas)
    (hne : t.table ≠ []) {o : Nat} (ho : o ≤ datas.flatten.length) (s : List Char) :
    (t.insert_at o s).isSome := by
  have ho' : o ≤ totalLen datas := by
    rw [totalLen_eq_length_flatten]
    exact ho
  have hs := @find_offsetGo_isSome t t.table datas hwf o 0 ho' hne
  obtain ⟨res, hres⟩ := Option.isSome_iff_exists.mp hs
  obtain ⟨pidx, off⟩ := res
  obtain ⟨j, rem, p, data, hp, hd, hpd, hrem, hres', hsum⟩ := find_offsetGo_sound hwf hres
  injection hres' with h1 h2
  rw [Nat.zero_add] at h1
  have h1' : j = pidx := h1.symm
  subst h1'
  subst h2
  have hfo : t.find_offset o =
      some (j, ⟨rem, utf8ByteLen (List.take rem data)⟩) := hres
  unfold PieceTable.insert_at
  rw [hfo]
  dsimp
  rw [hp]
  dsimp
  split <;> rfl

/-! ## Soundness of `remove_range` -/

theorem remove_range_sound {t : PieceTable} {datas : List (List Char)} {a b : Nat}
    {t' : PieceTable} (hwf : WF t datas) (h : t.remove_range a b = some t') :
    ∃ datas', WF t' datas' ∧ t'.src = t.src ∧ t'.added = t.added ∧ t'.table ≠ [] := by
  unfold PieceTable.remove_range at h
  cases hfs : t.find_offset a with
  | none =>
    rw [hfs] at h
    simp at h
  | some resS =>
    obtain ⟨ts, soff⟩ := resS
    obtain ⟨jS, remS, pS, dataS, hpS, hdS, hpdS, hremS, hresS, hsumS⟩ :=
      find_offsetGo_sound hwf (show PieceTable.find_offsetGo t t.table a 0 = _ from hfs)
    injection hresS with hS1 hS2
    rw [Nat.zero_add] at hS1
    subst hS1
    subst hS2
    rw [hfs] at h
    dsimp at h
    cases hfe : t.find_offset b with
    | none =>
      rw [hfe] at h
      simp at h
    | some resE =>
      obtain ⟨te, eoff⟩ := resE
      obtain ⟨jE, remE, pE, dataE, hpE, hdE, hpdE, hremE, hresE, hsumE⟩ :=
        find_offsetGo_sound hwf (show PieceTable.find_offsetGo t t.table b 0 = _ from hfe)
      injection hresE with hE1 hE2
      rw [Nat.zero_add] at hE1
      subst hE1
      subst hE2
      rw [hfe] at h
      dsimp at h
      rw [hpS, hpE] at h
      dsimp at h
      by_cases hg : ts ≤ te + 1
      · rw [if_pos hg] at h
        by_cases h1 : pS.len.byte = utf8ByteLen (List.take remS dataS)
        · rw [if_pos h1] at h
          simp only [Option.some.injEq] at h
          refine ⟨datas.take ts ++ [dataE.drop remE] ++ datas.drop (te + 1),
            ?_, by rw [← h], by rw [← h], by rw [← h]; simp [PieceTable.spliceIncl]⟩
          unfold WF
          rw [← h]
          simp only [PieceTable.spliceIncl, List.append_assoc]
          exact List.rel_append (List.forall₂_take ts hwf)
            (List.rel_append
              (List.Forall₂.cons (pden_split_next hpdE hremE) List.Forall₂.nil)
              (List.forall₂_drop (te + 1) hwf))
        · rw [if_neg h1] at h
          by_cases h2 : pE.len.byte = utf8ByteLen (List.take remS dataS)
          · rw [if_pos h2] at h
            simp only [Option.some.injEq] at h
            refine ⟨datas.take ts ++ [dataS.take remS] ++ datas.drop (te + 1),
              ?_, by rw [← h], by rw [← h], by rw [← h]; simp [PieceTable.spliceIncl]⟩
            unfold WF
            rw [← h]
            simp only [PieceTable.spliceIncl, List.append_assoc]
            exact List.rel_append (List.forall₂_take ts hwf)
              (List.rel_append
                (List.Forall₂.cons (pden_split_prev hpdS hremS) List.Forall₂.nil)
                (List.forall₂_drop (te + 1) hwf))
          · rw [if_neg h2] at h
            simp only [Option.some.injEq] at h
            refine ⟨datas.take ts ++ [dataS.take remS, dataE.drop remE] ++ datas.drop (te + 1),
              ?_, by rw [← h], by rw [← h], by rw [← h]; simp [PieceTable.spliceIncl]⟩
            unfold WF
            rw [← h]
            simp only [PieceTable.spliceIncl, List.append_assoc]
            exact List.rel_append (List.forall₂_take ts hwf)
              (List.rel_append
                (List.Forall₂.cons (pden_split_prev hpdS hremS)
                  (List.Forall₂.cons (pden_split_next hpdE hremE) List.Forall₂.nil))
                (List.forall₂_drop (te + 1) hwf))
      · rw [if_neg hg] at h
        simp at h

/-! ## Reachable tables -/

theorem reachable_inv {t : PieceTable} (h : Reachable t) :
    (∃ datas, WF t datas) ∧ t.table ≠ [] := by
  induction h with
  | base s =>
    refine ⟨⟨[s], ?_⟩, by simp [PieceTable.new]⟩
    unfold WF
    refine List.Forall₂.cons ?_ List.Forall₂.nil
    exact ⟨[], [], by simp [PieceTable.new], rfl, rfl, rfl⟩
  | insert_step o s _ hins ih =>
    obtain ⟨⟨datas, hwf⟩, _⟩ := ih
    obtain ⟨datas', hwf', _, _, _, hne', _⟩ := insert_at_sound hwf hins
    exact ⟨⟨datas', hwf'⟩, hne'⟩
  | remove_step a b _ hrem ih =>
    obtain ⟨⟨datas, hwf⟩, _⟩ := ih
    obtain ⟨datas', hwf', _, _, hne'⟩ := remove_range_sound hwf hrem
    exact ⟨⟨datas', hwf'⟩, hne'⟩

/-! ## Claim theorems -/

/-- C1: the claim states that for every reachable table and every in-range
`start ≤ end`, `remove_range` deletes exactly the characters in `[start, end)`
and keeps every piece wholly before `start`.  The code violates this: when
`start` resolves to the end of a piece (which `find_offset` produces at every
interior piece boundary because of its `<=` test), the first branch of
`remove_range` splices away the whole span `[table_start ..= table_end]`
including the text of the start piece that lies before `start`.  Concretely,
`new "ab"` then `insert_at 2 "cd"` renders `"abcd"`, and `remove_range 2 3`
must render `"abd"`, but the code renders `"d"`. -/
theorem remove_range_drops_text_before_start :
    (((PieceTable.new ['a', 'b']).insert_at 2 ['c', 'd']).bind
        (fun u => u.remove_range 2 3)).bind PieceTable.to_string = some ['d'] := by
  rfl

/-- C3: the claim states `remove_range` fails with an invalid-range error
whenever `start > end` and leaves the table unchanged.  The code never
validates `start > end`: on `new "abc"` the call `remove_range 2 1` does not
fail at all — it silently splices the table and renders `"abbc"`. -/
theorem remove_range_reversed_range_mutates :
    ((PieceTable.new ['a', 'b', 'c']).remove_range 2 1).bind PieceTable.to_string
      = some ['a', 'b', 'b', 'c'] := by
  rfl

/-- C2: for every reachable table rendering `doc`, every offset `i ≤ doc.length`
and every text `s`, `insert_at i s` succeeds and the new table renders
`doc.take i ++ s ++ doc.drop i` (so `insert_at 0` prepends and
`insert_at doc.length` appends); moreover, whenever the resolved cursor's
intra-offset lands exactly on the byte end of its piece, the new piece is
inserted immediately after that piece with no split. -/
theorem insert_at_renders_document (t : PieceTable) (ht : Reachable t)
    (doc : List Char) (hdoc : t.to_string = some doc) (i : Nat)
    (hi : i ≤ doc.length) (s : List Char) :
    (∃ t', t.insert_at i s = some t' ∧
      t'.to_string = some (doc.take i ++ s ++ doc.drop i)) ∧
    (∀ (j : Nat) (off : Utf8Offset) (p : Piece),
      t.find_offset i = some (j, off) → t.table[j]? = some p →
      off.byte = p.len.byte →
      t.insert_at i s = some { t with
        table := t.table.take (j + 1) ++
          (⟨utf8ByteLen t.added, Utf8Offset.from_str s, .added⟩ : Piece) ::
            t.table.drop (j + 1),
        added := t.added ++ s }) := by
  obtain ⟨⟨datas, hwf⟩, hne⟩ := reachable_inv ht
  have h1 : t.to_string = some datas.flatten := to_string_wf hwf
  rw [hdoc] at h1
  injection h1 with h1
  subst h1
  constructor
  · obtain ⟨t', ht'⟩ := Option.isSome_iff_exists.mp (insert_at_isSome hwf hne hi s)
    obtain ⟨datas', hwf', hflat, _, _, _, _⟩ := insert_at_sound hwf ht'
    refine ⟨t', ht', ?_⟩
    rw [to_string_wf hwf', hflat]
  · intro j off p hfo hp hb
    unfold PieceTable.insert_at
    rw [hfo]
    dsimp
    rw [hp]
    dsimp
    rw [if_pos hb]

/-- Witness for C2 at a concrete input: inserting `"x"` at offset 1 of the
table built from `"ab"` renders `"axb"`. -/
theorem insert_at_renders_document_witness :
    ∃ t', (PieceTable.new ['a', 'b']).insert_at 1 ['x'] = some t' ∧
      t'.to_string = some (['a', 'b'].take 1 ++ ['x'] ++ ['a', 'b'].drop 1) :=
  (insert_at_renders_document (PieceTable.new ['a', 'b'])
    (Reachable.base ['a', 'b']) ['a', 'b'] rfl 1 (by decide) ['x']).1

/-- C4: `insert_at` fails (the Rust code panics inside `find_offset`, modelled
as `none`) whenever the character offset exceeds the document length; the
panic happens before any mutation, so in the model no partially-updated table
exists — the caller's table is exactly the one it passed in. -/
theorem insert_at_out_of_range_fails (t : PieceTable) (ht : Reachable t)
    (doc : List Char) (hdoc : t.to_string = some doc) (i : Nat)
    (hi : doc.length < i) (s : List Char) : t.insert_at i s = none := by
  obtain ⟨⟨datas, hwf⟩, _⟩ := reachable_inv ht
  have h1 : t.to_string = some datas.flatten := to_string_wf hwf
  rw [hdoc] at h1
  injection h1 with h1
  have hfo : t.find_offset i = none := by
    apply find_offsetGo_none hwf
    rw [totalLen_eq_length_flatten, ← h1]
    exact hi
  unfold PieceTable.insert_at
  rw [hfo]

/-- Witness for C4: inserting at offset 2 of the one-character table fails. -/
theorem insert_at_out_of_range_fails_witness :
    (PieceTable.new ['a']).insert_at 2 ['x'] = none :=
  insert_at_out_of_range_fails (PieceTable.new ['a']) (Reachable.base ['a'])
    ['a'] rfl 2 (by decide) ['x']

/-- C5: in every reachable table, every piece's byte range denotes a slice of
its buffer (`get_piece_data` succeeds, i.e. the range lies inside the buffer
and both endpoints are UTF-8 character boundaries — `sliceBytes` returns
`none` otherwise), the slice holds exactly `len.utf8` scalar values and
`len.byte` bytes, and consequently `to_string` succeeds. -/
theorem reachable_pieces_wellformed (t : PieceTable) (ht : Reachable t) :
    (∀ p ∈ t.table, ∃ data, t.get_piece_data p = some data ∧
        PieceDen t.src t.added p data ∧
        data.length = p.len.utf8 ∧ utf8ByteLen data = p.len.byte) ∧
    (∃ doc, t.to_string = some doc) := by
  obtain ⟨⟨datas, hwf⟩, _⟩ := reachable_inv ht
  constructor
  · intro p hp
    obtain ⟨data, _, hpd⟩ := forall₂_mem_left hwf hp
    exact ⟨data, get_piece_data_of_den hpd, hpd, hpd.len_utf8.symm, hpd.len_byte.symm⟩
  · exact ⟨datas.flatten, to_string_wf hwf⟩

/-- Witness for C5 at the table built from `"a"`: its single piece slices
to `"a"` and rendering succeeds. -/
theorem reachable_pieces_wellformed_witness :
    (∃ data, (PieceTable.new ['a']).get_piece_data
        ⟨0, Utf8Offset.from_str ['a'], Location.original⟩ = some data ∧
      PieceDen (PieceTable.new ['a']).src (PieceTable.new ['a']).added
        ⟨0, Utf8Offset.from_str ['a'], Location.original⟩ data ∧
      data.length = (Utf8Offset.from_str ['a']).utf8 ∧
      utf8ByteLen data = (Utf8Offset.from_str ['a']).byte) ∧
    (∃ doc, (PieceTable.new ['a']).to_string = some doc) :=
  ⟨(reachable_pieces_wellformed (PieceTable.new ['a']) (Reachable.base ['a'])).1
      ⟨0, Utf8Offset.from_str ['a'], Location.original⟩ (by simp [PieceTable.new]),
    (reachable_pieces_wellformed (PieceTable.new ['a']) (Reachable.base ['a'])).2⟩

/-- C6: splitting a piece that denotes `data` at an intra-offset that is
consistent in both metrics (`off.utf8 ≤ len.utf8` and `off.byte` the encoded
length of the first `off.utf8` characters, i.e. a character boundary of the
slice) yields two pieces whose lengths add up exactly in both metrics and
whose slices concatenate byte-for-byte to the original slice. -/
theorem split_piece_exact (buf : List Char) (p : Piece) (data : List Char)
    (hden : Denotes buf p data) (off : Utf8Offset) (hu : off.utf8 ≤ p.len.utf8)
    (hb : off.byte = utf8ByteLen (data.take off.utf8)) :
    (split_piece p off).1.len.byte + (split_piece p off).2.len.byte = p.len.byte ∧
    (split_piece p off).1.len.utf8 + (split_piece p off).2.len.utf8 = p.len.utf8 ∧
    sliceBytes buf (split_piece p off).1.begin (split_piece p off).1.len.byte
      = some (data.take off.utf8) ∧
    sliceBytes buf (split_piece p off).2.begin (split_piece p off).2.len.byte
      = some (data.drop off.utf8) ∧
    data.take off.utf8 ++ data.drop off.utf8 = data := by
  obtain ⟨u, b⟩ := off
  dsimp only at hu hb ⊢
  subst hb
  have hlen : p.len.utf8 = data.length := hden.len_utf8_eq
  have hbyte : p.len.byte = utf8ByteLen data := hden.len_byte_eq
  have hrem : u ≤ data.length := by omega
  have hmono : utf8ByteLen (data.take u) ≤ utf8ByteLen data := by
    conv_rhs => rw [← List.take_append_drop u data]
    rw [utf8ByteLen_append]
    omega
  refine ⟨?_, ?_, ?_, ?_, List.take_append_drop u data⟩
  · show utf8ByteLen (data.take u) + (p.len.byte - utf8ByteLen (data.take u)) = p.len.byte
    omega
  · show u + (p.len.utf8 - u) = p.len.utf8
    omega
  · exact (den_split_prev hden hrem).slice
  · exact (den_split_next hden hrem).slice

/-- Witness for C6: splitting the piece over `"ab"` at offset `⟨1, 1⟩`. -/
theorem split_piece_exact_witness :
    (split_piece ⟨0, ⟨2, 2⟩, Location.original⟩ ⟨1, 1⟩).1.len.byte +
        (split_piece ⟨0, ⟨2, 2⟩, Location.original⟩ ⟨1, 1⟩).2.len.byte = 2 ∧
    (split_piece ⟨0, ⟨2, 2⟩, Location.original⟩ ⟨1, 1⟩).1.len.utf8 +
        (split_piece ⟨0, ⟨2, 2⟩, Location.original⟩ ⟨1, 1⟩).2.len.utf8 = 2 ∧
    sliceBytes ['a', 'b'] (split_piece ⟨0, ⟨2, 2⟩, Location.original⟩ ⟨1, 1⟩).1.begin
        (split_piece ⟨0, ⟨2, 2⟩, Location.original⟩ ⟨1, 1⟩).1.len.byte = some ['a'] ∧
    sliceBytes ['a', 'b'] (split_piece ⟨0, ⟨2, 2⟩, Location.original⟩ ⟨1, 1⟩).2.begin
        (split_piece ⟨0, ⟨2, 2⟩, Location.original⟩ ⟨1, 1⟩).2.len.byte = some ['b'] ∧
    ['a'] ++ ['b'] = ['a', 'b'] :=
  split_piece_exact ['a', 'b'] ⟨0, ⟨2, 2⟩, Location.original⟩ ['a', 'b']
    ⟨[], [], by decide, by decide, by decide, by decide⟩ ⟨1, 1⟩ (by decide) (by decide)

/-- C7: the source buffer is never mutated by any successful `insert_at` or
`remove_range`, and the added buffer only grows by appending the inserted
text at its end (`remove_range` leaves it untouched), so existing byte
ranges into either buffer stay valid. -/
theorem buffers_frame :
    (∀ (t : PieceTable) (o : Nat) (s : List Char) (t' : PieceTable),
        t.insert_at o s = some t' → t'.src = t.src ∧ t'.added = t.added ++ s) ∧
    (∀ (t : PieceTable) (a b : Nat) (t' : PieceTable),
        t.remove_range a b = some t' → t'.src = t.src ∧ t'.added = t.added) := by
  constructor
  · intro t o s t' h
    unfold PieceTable.insert_at at h
    cases hfo : t.find_offset o with
    | none =>
      rw [hfo] at h
      simp at h
    | some res =>
      obtain ⟨pidx, off⟩ := res
      rw [hfo] at h
      dsimp at h
      cases hp : t.table[pidx]? with
      | none =>
        rw [hp] at h
        simp at h
      | some p =>
        rw [hp] at h
        dsimp at h
        split at h <;>
          · simp only [Option.some.injEq] at h
            rw [← h]
            exact ⟨rfl, rfl⟩
  · intro t a b t' h
    unfold PieceTable.remove_range at h
    cases hfs : t.find_offset a with
    | none =>
      rw [hfs] at h
      simp at h
    | some resS =>
      obtain ⟨ts, soff⟩ := resS
      rw [hfs] at h
      dsimp at h
      cases hfe : t.find_offset b with
      | none =>
        rw [hfe] at h
        simp at h
      | some resE =>
        obtain ⟨te, eoff⟩ := resE
        rw [hfe] at h
        dsimp at h
        cases hps : t.table[ts]? with
        | none =>
          rw [hps] at h
          simp at h
        | some sp =>
          cases hpe : t.table[te]? with
          | none =>
            rw [hps, hpe] at h
            simp at h
          | some ep =>
            rw [hps, hpe] at h
            dsimp at h
            split at h
            · split at h
              · simp only [Option.some.injEq] at h
                rw [← h]
                exact ⟨rfl, rfl⟩
              · split at h <;>
                  · simp only [Option.some.injEq] at h
                    rw [← h]
                    exact ⟨rfl, rfl⟩
            · simp at h

/-- Witness for C7: inserting `"b"` at the end of the table built from `"a"`
keeps the source buffer and appends to the added buffer. -/
theorem buffers_frame_witness :
    ∃ t', (PieceTable.new ['a']).insert_at 1 ['b'] = some t' ∧
      t'.src = (PieceTable.new ['a']).src ∧
      t'.added = (PieceTable.new ['a']).added ++ ['b'] := by
  refine ⟨_, rfl, ?_⟩
  exact buffers_frame.1 (PieceTable.new ['a']) 1 ['b'] _ rfl

/-- C8: scenario C of the spec, replayed through the model: starting from the
empty table, `insert_at 0 "12345"`, `insert_at 5 "다람쥐"`, `remove_range 0 4`
and `remove_range 0 3` render `"12345"`, `"12345다람쥐"`, `"5다람쥐"` and
`"쥐"` in turn. -/
theorem scenario_c_renders :
    ∃ t1 t2 t3 t4 : PieceTable,
      (PieceTable.new []).insert_at 0 ['1', '2', '3', '4', '5'] = some t1 ∧
      t1.to_string = some ['1', '2', '3', '4', '5'] ∧
      t1.insert_at 5 ['다', '람', '쥐'] = some t2 ∧
      t2.to_string = some ['1', '2', '3', '4', '5', '다', '람', '쥐'] ∧
      t2.remove_range 0 4 = some t3 ∧
      t3.to_string = some ['5', '다', '람', '쥐'] ∧
      t3.remove_range 0 3 = some t4 ∧
      t4.to_string = some ['쥐'] := by
  exact ⟨_, _, _, _, rfl, rfl, rfl, rfl, rfl, rfl, rfl, rfl⟩

/-- C9: `new` always creates exactly one `Original` piece (even for empty
text), and every reachable table has a nonempty piece sequence, so resolving
offset 0 always succeeds. -/
theorem table_never_empty :
    (∀ s : List Char, (PieceTable.new s).table =
        [⟨0, Utf8Offset.from_str s, Location.original⟩]) ∧
    (∀ t : PieceTable, Reachable t →
        t.table ≠ [] ∧ (t.find_offset 0).isSome) := by
  constructor
  · intro s
    rfl
  · intro t ht
    obtain ⟨⟨datas, hwf⟩, hne⟩ := reachable_inv ht
    exact ⟨hne, find_offsetGo_isSome hwf (Nat.zero_le _) hne⟩

/-- Witness for C9 at the table built from `"a"`. -/
theorem table_never_empty_witness :
    (PieceTable.new ['a']).table ≠ [] ∧
      ((PieceTable.new ['a']).find_offset 0).isSome :=
  table_never_empty.2 (PieceTable.new ['a']) (Reachable.base ['a'])

/-- C10: inserting the empty string at any valid offset of a reachable table
succeeds, appends nothing to the added buffer, and leaves the rendered
document unchanged. -/
theorem insert_empty_string_identity (t : PieceTable) (ht : Reachable t)
    (doc : List Char) (hdoc : t.to_string = some doc) (i : Nat)
    (hi : i ≤ doc.length) :
    ∃ t', t.insert_at i [] = some t' ∧ t'.to_string = some doc ∧
      t'.added = t.added ∧ t'.src = t.src := by
  obtain ⟨⟨datas, hwf⟩, hne⟩ := reachable_inv ht
  have h1 : t.to_string = some datas.flatten := to_string_wf hwf
  rw [hdoc] at h1
  injection h1 with h1
  subst h1
  obtain ⟨t', ht'⟩ := Option.isSome_iff_exists.mp (insert_at_isSome hwf hne hi [])
  obtain ⟨datas', hwf', hflat, hsrc, hadd, _, _⟩ := insert_at_sound hwf ht'
  refine ⟨t', ht', ?_, by rw [hadd]; simp, hsrc⟩
  rw [to_string_wf hwf', hflat]
  simp

/-- Witness for C10: inserting `""` at offset 1 of the table built from
`"ab"` renders `"ab"` again. -/
theorem insert_empty_string_identity_witness :
    ∃ t', (PieceTable.new ['a', 'b']).insert_at 1 [] = some t' ∧
      t'.to_string = some ['a', 'b'] ∧
      t'.added = (PieceTable.new ['a', 'b']).added ∧
      t'.src = (PieceTable.new ['a', 'b']).src :=
  insert_empty_string_identity (PieceTable.new ['a', 'b'])
    (Reachable.base ['a', 'b']) ['a', 'b'] rfl 1 (by decide)

end PT
